import Mathlib

/-!
Shallow embedding of the tic-tac-toe game logic from `src/state.rs`
(together with the `Vertex` type of `src/render.rs`), and proofs of the
specification's claims about it.

Floating-point arithmetic (`f32` / `f64`) is modelled by exact rational
arithmetic for the game-logic properties: every literal of the source
(`0.666`, `1./20.`, `1./3.`) is kept exactly as written.  Where a property
turns on `f64` round-off itself — the in-bounds claim for the click index —
the relevant computation is additionally modelled with faithful IEEE-754
binary64 rounding (`roundB64`, `f64div`).  The `as usize` cast of a
non-negative `f64` is a floor, and it saturates at `0` for negative inputs;
both behaviours are captured by `Int.floor` followed by `Int.toNat`.
Out-of-bounds array indexing, which in Rust aborts the program, is modelled
by `Option`: `handleClick` returns `none` exactly where `board[x][y]` would
panic.
-/

namespace TicTacToe

/-- `Tile` from `state.rs`: `state`: 0 = empty, 1 = cross, 2 = knot;
`frame` is the current animation frame (a `u8`; every mutation in the code is
guarded so it never exceeds 19, hence plain `Nat` is a faithful model). -/
structure Tile where
  state : Nat
  frame : Nat
deriving DecidableEq, Repr

/-- `Tile::new` from `state.rs`. -/
def Tile.new : Tile := { state := 0, frame := 0 }

/-- `Vertex` from `render.rs`: a position and texture coordinates,
pairs of (exact-rational models of) `f32`. -/
structure Vertex where
  pos : ℚ × ℚ
  tex_coords : ℚ × ℚ
deriving DecidableEq, Repr

/-- `TW` from `state.rs`: width of one spritesheet tile. -/
def TW : ℚ := 1 / 20

/-- `TH` from `state.rs`: height of one spritesheet tile. -/
def TH : ℚ := 1 / 3

/-- The board `[[Tile; 3]; 3]`, indexed as `board[x][y]` = `b x y`
(first index = column, second = row, as used by `handle_click`). -/
abbrev Board := Fin 3 → Fin 3 → Tile

/-- `gen_board` from `state.rs`: the empty board. -/
def genBoard : Board := fun _ _ => Tile.new

/-- Writing one cell of the board (`board[x][y] = t` in Rust). -/
def setTile (b : Board) (x y : Fin 3) (t : Tile) : Board :=
  fun x' y' => if x' = x ∧ y' = y then t else b x' y'

/-- `State` from `state.rs`: `turn`: true = X (cross), false = O (knot). -/
structure GState where
  turn : Bool
  finished : Bool
deriving DecidableEq, Repr

/-- `State::new` from `state.rs`. -/
def GState.new : GState := { turn := true, finished := false }

/-- `State::change_turn` from `state.rs`.  The window-title update is an
external side effect with no influence on the game state and is not
modelled. -/
def changeTurn (s : GState) : GState := { s with turn := !s.turn }

/-- The victory condition of `State::check_victory` from `state.rs`,
transcribed clause by clause (columns, then rows, then diagonals). -/
def winCond (b : Board) : Bool :=
  ( (b 0 0).state != 0 && (b 0 0).state == (b 0 1).state && (b 0 1).state == (b 0 2).state )
  || ( (b 1 0).state != 0 && (b 1 0).state == (b 1 1).state && (b 1 1).state == (b 1 2).state )
  || ( (b 2 0).state != 0 && (b 2 0).state == (b 2 1).state && (b 2 1).state == (b 2 2).state )
  || ( (b 0 0).state != 0 && (b 0 0).state == (b 1 0).state && (b 1 0).state == (b 2 0).state )
  || ( (b 0 1).state != 0 && (b 0 1).state == (b 1 1).state && (b 1 1).state == (b 2 1).state )
  || ( (b 0 2).state != 0 && (b 0 2).state == (b 1 2).state && (b 1 2).state == (b 2 2).state )
  || ( (b 0 0).state != 0 && (b 0 0).state == (b 1 1).state && (b 1 1).state == (b 2 2).state )
  || ( (b 2 0).state != 0 && (b 2 0).state == (b 1 1).state && (b 1 1).state == (b 0 2).state )

/-- `State::check_victory` from `state.rs`: sets `finished` when the
victory condition holds; the window-title update is not modelled; the board
is taken immutably. -/
def checkVictory (s : GState) (b : Board) : GState :=
  if winCond b then { s with finished := true } else s

/-- The `as usize` cast applied to a (model of a) non-NaN `f64`:
truncation, saturating at `0` from below.  For `q ≥ 0` this is `⌊q⌋`; for
`q < 0` both truncation-then-saturation and `Int.toNat ∘ Int.floor`
give `0`. -/
def toUsize (q : ℚ) : Nat := (Int.floor q).toNat

/-- `State::handle_click` from `state.rs`.  `mouseX, mouseY` are the
cursor position, `width, height` the window's inner size.  Returns `none`
where the Rust code would panic on an out-of-bounds board index. -/
def handleClick (s : GState) (mouseX mouseY width height : ℚ) (b : Board) :
    Option (GState × Board) :=
  if s.finished then some (s, b)
  else
    let tileWidth := width / 3
    let tileHeight := height / 3
    let x := toUsize (mouseX / tileWidth)
    let y := toUsize (mouseY / tileHeight)
    if hx : x < 3 then
      if hy : y < 3 then
        if (b ⟨x, hx⟩ ⟨y, hy⟩).state = 0 then
          let b' := setTile b ⟨x, hx⟩ ⟨y, hy⟩
            { frame := 0, state := if s.turn then 1 else 2 }
          let s' := checkVictory s b'
          let s'' := if !s'.finished then changeTurn s' else s'
          some (s'', b')
        else some (s, b)
      else none
    else none

/-- The six background-quad vertices of `gen_board_vertices`. -/
def backgroundVerts : List Vertex :=
  [ { pos := (-1, 1), tex_coords := (0, TH * 2) },
    { pos := (-1, -1), tex_coords := (0, 1) },
    { pos := (1, -1), tex_coords := (TW, 1) },
    { pos := (-1, 1), tex_coords := (0, TH * 2) },
    { pos := (1, -1), tex_coords := (TW, TH * 3) },
    { pos := (1, 1), tex_coords := (TW, TH * 2) } ]

/-- The six vertices `gen_board_vertices` emits for an occupied tile `t`
at board position `(x, y)`, with the source's literals kept exactly. -/
def tileVerts (t : Tile) (x y : Fin 3) : List Vertex :=
  let tileX : ℚ := -1 + 0.666 * (x.val : ℚ)
  let tileY : ℚ := 1 - 0.666 * (y.val : ℚ)
  let texX : ℚ := TW * (t.frame : ℚ)
  let texY : ℚ := TH * ((t.state - 1 : Nat) : ℚ)
  [ { pos := (tileX, tileY), tex_coords := (texX, texY) },
    { pos := (tileX, tileY - 0.666), tex_coords := (texX, texY + TH) },
    { pos := (tileX + 0.666, tileY - 0.666), tex_coords := (texX + TW, texY + TH) },
    { pos := (tileX, tileY), tex_coords := (texX, texY) },
    { pos := (tileX + 0.666, tileY - 0.666), tex_coords := (texX + TW, texY + TH) },
    { pos := (tileX + 0.666, tileY), tex_coords := (texX + TW, texY) } ]

/-- The traversal order of the nested loops of `gen_board_vertices`:
outer index `x`, inner index `y`. -/
def allIdx : List (Fin 3 × Fin 3) :=
  [(0, 0), (0, 1), (0, 2), (1, 0), (1, 1), (1, 2), (2, 0), (2, 1), (2, 2)]

/-- One iteration of the tile loop of `gen_board_vertices`.  `b` is the
clone of the board taken before the loop (all reads go through it); the
accumulator carries the vertex list built so far and the mutably borrowed
board receiving the frame increments. -/
def genStep (b : Board) (acc : List Vertex × Board) (xy : Fin 3 × Fin 3) :
    List Vertex × Board :=
  let tile := b xy.1 xy.2
  if tile.state ≠ 0 then
    ( acc.1 ++ tileVerts tile xy.1 xy.2,
      if tile.frame < 19 then
        setTile acc.2 xy.1 xy.2 { tile with frame := tile.frame + 1 }
      else acc.2 )
  else acc

/-- `gen_board_vertices` from `state.rs`: returns the vertex list and the
board after the frame-counter updates (the function takes the board by
`&mut`; the returned board is its final value). -/
def genBoardVertices (b : Board) : List Vertex × Board :=
  let res := allIdx.foldl (genStep b) ([], b)
  (backgroundVerts ++ res.1, res.2)

/-- A cell of the board, as a (column, row) pair. -/
abbrev Cell := Fin 3 × Fin 3

/-- Does the tile at `xy` hold a mark? (read off the pre-call board). -/
def occupiedB (b : Board) (xy : Cell) : Bool := (b xy.1 xy.2).state != 0

/-- Number of non-empty cells of the board. -/
def occupiedCount (b : Board) : Nat := (allIdx.filter (occupiedB b)).length

/-- The eight candidate winning triples, in the evaluation order of
`check_victory`: three columns, three rows, two diagonals. -/
def winTriples : List (Cell × Cell × Cell) :=
  [ ((0, 0), (0, 1), (0, 2)), ((1, 0), (1, 1), (1, 2)), ((2, 0), (2, 1), (2, 2)),
    ((0, 0), (1, 0), (2, 0)), ((0, 1), (1, 1), (2, 1)), ((0, 2), (1, 2), (2, 2)),
    ((0, 0), (1, 1), (2, 2)), ((2, 0), (1, 1), (0, 2)) ]

/-- A triple of cells wins on board `b` when all three tiles share the same
non-empty state. -/
def tripleWins (b : Board) (t : Cell × Cell × Cell) : Prop :=
  (b t.1.1 t.1.2).state ≠ 0 ∧
  (b t.1.1 t.1.2).state = (b t.2.1.1 t.2.1.2).state ∧
  (b t.2.1.1 t.2.1.2).state = (b t.2.2.1 t.2.2.2).state

instance (b : Board) (t : Cell × Cell × Cell) : Decidable (tripleWins b t) := by
  unfold tripleWins; infer_instance

/-- The frame-counter update `gen_board_vertices` applies to one tile. -/
def tickTile (t : Tile) : Tile :=
  if t.state ≠ 0 ∧ t.frame < 19 then { t with frame := t.frame + 1 } else t

/-- The board written by `handle_click` when the click at cell `(x, y)` is
accepted: the cell is set to the mark of the player to move, frame 0. -/
def placedBoard (s : GState) (b : Board) (x y : Fin 3) : Board :=
  setTile b x y { frame := 0, state := if s.turn then 1 else 2 }

/-! ### Helper lemmas -/

lemma mem_allIdx (c : Cell) : c ∈ allIdx := by
  revert c; decide

lemma nodup_allIdx : allIdx.Nodup := by decide

/-- The boolean victory condition of the source holds exactly when one of
the eight listed triples wins: win detection fires on no other triple. -/
lemma winCond_iff (b : Board) :
    winCond b = true ↔ ∃ t ∈ winTriples, tripleWins b t := by
  simp only [winCond, winTriples, tripleWins, Bool.or_eq_true, Bool.and_eq_true,
    bne_iff_ne, beq_iff_eq, List.mem_cons, List.not_mem_nil, or_false,
    exists_eq_or_imp, exists_eq_left, and_assoc, or_assoc]

lemma tileVerts_length (t : Tile) (x y : Fin 3) : (tileVerts t x y).length = 6 := by
  simp [tileVerts]

/-- The vertex half of the tile loop: the fold appends, to the accumulated
list, the six vertices of each tile of `l` that is occupied on the pre-call
board `b`, in the order of `l`. -/
lemma foldl_genStep_fst (b : Board) :
    ∀ (l : List Cell) (acc : List Vertex) (b2 : Board),
      (l.foldl (genStep b) (acc, b2)).1
        = acc ++ (l.filter (occupiedB b)).bind fun xy => tileVerts (b xy.1 xy.2) xy.1 xy.2 := by
  intro l
  induction l with
  | nil => intro acc b2; simp
  | cons xy l ih =>
    intro acc b2
    by_cases h : (b xy.1 xy.2).state = 0
    · simp [List.foldl_cons, genStep, h, occupiedB, ih]
    · simp [List.foldl_cons, genStep, h, occupiedB, ih, List.append_assoc]

lemma bind_tileVerts_length (b : Board) (l : List Cell) :
    (l.bind fun xy => tileVerts (b xy.1 xy.2) xy.1 xy.2).length = 6 * l.length := by
  induction l with
  | nil => simp
  | cons xy l ih => simp [ih, tileVerts_length]; omega

/-- A step of the tile loop leaves every cell other than its own untouched. -/
lemma genStep_snd_other (b : Board) (acc : List Vertex × Board) (xy c : Cell)
    (h : c ≠ xy) : (genStep b acc xy).2 c.1 c.2 = acc.2 c.1 c.2 := by
  have hne : ¬(c.1 = xy.1 ∧ c.2 = xy.2) := by
    intro ⟨h1, h2⟩; exact h (Prod.ext h1 h2)
  simp only [genStep]
  split_ifs with h1 h2
  · simp [setTile, hne]
  · rfl
  · rfl

lemma foldl_genStep_snd_notmem (b : Board) :
    ∀ (l : List Cell) (acc : List Vertex) (b2 : Board) (c : Cell), c ∉ l →
      (l.foldl (genStep b) (acc, b2)).2 c.1 c.2 = b2 c.1 c.2 := by
  intro l
  induction l with
  | nil => intro acc b2 c _; rfl
  | cons xy l ih =>
    intro acc b2 c hc
    rw [List.mem_cons, not_or] at hc
    rw [List.foldl_cons]
    have h0 := genStep_snd_other b (acc, b2) xy c hc.1
    rcases hstep : genStep b (acc, b2) xy with ⟨acc', b2'⟩
    rw [hstep] at h0
    rw [ih acc' b2' c hc.2]
    simpa using h0

/-- The board half of the tile loop, at a cell of `l` (processed once):
the cell receives the frame increment when it is occupied with frame below
19 on the pre-call board `b`, and otherwise keeps its accumulator value. -/
lemma foldl_genStep_snd_mem (b : Board) :
    ∀ (l : List Cell), l.Nodup → ∀ (acc : List Vertex) (b2 : Board) (c : Cell), c ∈ l →
      (l.foldl (genStep b) (acc, b2)).2 c.1 c.2
        = if (b c.1 c.2).state ≠ 0 ∧ (b c.1 c.2).frame < 19
          then { b c.1 c.2 with frame := (b c.1 c.2).frame + 1 }
          else b2 c.1 c.2 := by
  intro l
  induction l with
  | nil => intro _ acc b2 c hc; exact absurd hc (List.not_mem_nil c)
  | cons xy l ih =>
    intro hnd acc b2 c hc
    rw [List.nodup_cons] at hnd
    rw [List.foldl_cons]
    rcases List.mem_cons.mp hc with hceq | hcl
    · subst hceq
      have hnotl : c ∉ l := hnd.1
      rcases hstep : genStep b (acc, b2) c with ⟨acc', b2'⟩
      rw [foldl_genStep_snd_notmem b l acc' b2' c hnotl]
      simp only [genStep] at hstep
      by_cases hs : (b c.1 c.2).state ≠ 0
      · by_cases hf : (b c.1 c.2).frame < 19
        · rw [if_pos ⟨hs, hf⟩]
          simp only [if_pos hs, if_pos hf] at hstep
          have : b2' = setTile b2 c.1 c.2 { b c.1 c.2 with frame := (b c.1 c.2).frame + 1 } := by
            have := congrArg Prod.snd hstep; simpa using this.symm
          rw [this]; simp [setTile]
        · rw [if_neg (by tauto)]
          simp only [if_pos hs, if_neg hf] at hstep
          have : b2' = b2 := by
            have := congrArg Prod.snd hstep; simpa using this.symm
          rw [this]
      · rw [if_neg (by tauto)]
        simp only [if_neg hs] at hstep
        have : b2' = b2 := by
          have := congrArg Prod.snd hstep; simpa using this.symm
        rw [this]
    · have hne : c ≠ xy := by
        intro h; exact hnd.1 (h ▸ hcl)
      have h0 := genStep_snd_other b (acc, b2) xy c hne
      rcases hstep : genStep b (acc, b2) xy with ⟨acc', b2'⟩
      rw [hstep] at h0
      rw [ih hnd.2 acc' b2' c hcl]
      simp only at h0
      rw [h0]

/-- `gen_board_vertices` rewrites every cell by `tickTile`: occupied cells
with frame below 19 get the increment, all other cells are unchanged. -/
lemma genBoardVertices_snd (b : Board) :
    (genBoardVertices b).2 = fun x y => tickTile (b x y) := by
  funext x y
  show (allIdx.foldl (genStep b) ([], b)).2 x y = tickTile (b x y)
  have h := foldl_genStep_snd_mem b allIdx nodup_allIdx [] b (x, y) (mem_allIdx (x, y))
  simp only at h
  rw [h]
  unfold tickTile
  rfl

/-- The vertex list of `gen_board_vertices`: the background quad followed by
the six vertices of each occupied cell, in traversal order. -/
lemma genBoardVertices_fst (b : Board) :
    (genBoardVertices b).1
      = backgroundVerts
        ++ (allIdx.filter (occupiedB b)).bind fun xy => tileVerts (b xy.1 xy.2) xy.1 xy.2 := by
  show backgroundVerts ++ (allIdx.foldl (genStep b) ([], b)).1 = _
  rw [foldl_genStep_fst b allIdx [] b]
  simp

/-- Any member's image block is an infix of the flat-mapped list. -/
lemma block_in_bind (f : Cell → List Vertex) :
    ∀ (l : List Cell) (a : Cell), a ∈ l →
      ∃ pre post, l.bind f = pre ++ f a ++ post := by
  intro l
  induction l with
  | nil => intro a ha; exact absurd ha (List.not_mem_nil a)
  | cons c l ih =>
    intro a ha
    rcases List.mem_cons.mp ha with h | h
    · subst h
      exact ⟨[], l.bind f, by simp⟩
    · obtain ⟨pre, post, hp⟩ := ih a h
      exact ⟨f c ++ pre, post, by simp [hp]⟩

lemma tickTile_state (t : Tile) : (tickTile t).state = t.state := by
  unfold tickTile; split_ifs <;> rfl

/-- The board-updating effect of one call of `gen_board_vertices`, used to
iterate redraw cycles. -/
def renderTick (b : Board) : Board := (genBoardVertices b).2

lemma renderTick_cell (b : Board) (x y : Fin 3) :
    renderTick b x y = tickTile (b x y) :=
  congrFun (congrFun (genBoardVertices_snd b) x) y

/-- Iterating redraws on an occupied cell starting at frame 0: after `n`
redraws the frame counter reads `min n 19`. -/
lemma renderTick_iter (b : Board) (x y : Fin 3)
    (hs : (b x y).state ≠ 0) (h0 : (b x y).frame = 0) :
    ∀ n, ((renderTick^[n] b) x y).state = (b x y).state
      ∧ ((renderTick^[n] b) x y).frame = min n 19 := by
  intro n
  induction n with
  | zero => exact ⟨rfl, by simpa using h0⟩
  | succ n ih =>
    rw [Function.iterate_succ_apply', renderTick_cell]
    rcases ih with ⟨ihs, ihf⟩
    unfold tickTile
    by_cases hf : ((renderTick^[n] b) x y).frame < 19
    · rw [if_pos ⟨by rw [ihs]; exact hs, hf⟩]
      rw [ihf] at hf
      exact ⟨by simpa using ihs, by simp [ihf]; omega⟩
    · rw [if_neg (by tauto)]
      rw [ihf] at hf
      exact ⟨ihs, by rw [ihf]; omega⟩

/-! ### Claims -/

/-- C1: `check_victory` makes `finished` true exactly when one of the eight
triples — three columns, three rows, two diagonals — has all three cells
sharing the same non-empty state; it fires on no other triple (the win
condition is equivalent to a win on one of exactly those eight triples); it
never touches the turn flag, the board is taken immutably, and when no such
triple exists the state is returned unchanged. -/
theorem check_victory_correct (s : GState) (b : Board) :
    ((checkVictory s b).finished = true ↔
      (s.finished = true ∨ ∃ t ∈ winTriples, tripleWins b t))
    ∧ (checkVictory s b).turn = s.turn
    ∧ ((¬ ∃ t ∈ winTriples, tripleWins b t) → checkVictory s b = s) := by
  by_cases h : winCond b = true
  · have hw : ∃ t ∈ winTriples, tripleWins b t := (winCond_iff b).mp h
    refine ⟨?_, ?_, ?_⟩
    · simp [checkVictory, h, hw]
    · simp [checkVictory, h]
    · intro hn; exact absurd hw hn
  · have hw : ¬ ∃ t ∈ winTriples, tripleWins b t := fun hex => h ((winCond_iff b).mpr hex)
    refine ⟨?_, ?_, ?_⟩
    · simp [checkVictory, h, hw]
    · simp [checkVictory, h]
    · intro _; simp [checkVictory, h]

/-- Witness for C1: on the empty board no triple wins, and `check_victory`
leaves the fresh state unchanged. -/
theorem check_victory_correct_w : checkVictory GState.new genBoard = GState.new :=
  (check_victory_correct GState.new genBoard).2.2 (by decide)

/-- C2: for every board, `gen_board_vertices` returns the six background
vertices followed by the six vertices of each occupied cell in board
traversal order, hence exactly `6 + 6*k` vertices where `k` is the number
of non-empty cells. -/
theorem gen_vertices_count (b : Board) :
    (genBoardVertices b).1
        = backgroundVerts
          ++ (allIdx.filter (occupiedB b)).bind (fun xy => tileVerts (b xy.1 xy.2) xy.1 xy.2)
    ∧ (genBoardVertices b).1.length = 6 + 6 * occupiedCount b := by
  refine ⟨genBoardVertices_fst b, ?_⟩
  rw [genBoardVertices_fst b]
  simp only [List.length_append, bind_tileVerts_length]
  simp [backgroundVerts, occupiedCount]

/-- C7: a newly placed cell has frame counter 0; each `gen_board_vertices`
call increments the frame of an occupied cell by 1 when below 19 and leaves
it unchanged otherwise; from frame 0, 19 redraws reach frame 19 and every
further redraw keeps it at 19. -/
theorem frame_counter_saturates (s : GState) (b : Board) (x y : Fin 3) :
    ((placedBoard s b x y) x y).frame = 0
    ∧ (∀ bd : Board, (bd x y).state ≠ 0 →
        (renderTick bd x y).frame
          = if (bd x y).frame < 19 then (bd x y).frame + 1 else (bd x y).frame)
    ∧ ((b x y).state ≠ 0 → (b x y).frame = 0 →
        ((renderTick^[19] b) x y).frame = 19
        ∧ ∀ n, 19 ≤ n → ((renderTick^[n] b) x y).frame = 19) := by
  refine ⟨?_, ?_, ?_⟩
  · simp [placedBoard, setTile]
  · intro bd hs
    rw [renderTick_cell]
    unfold tickTile
    by_cases hf : (bd x y).frame < 19
    · rw [if_pos ⟨hs, hf⟩, if_pos hf]
    · rw [if_neg (by tauto), if_neg hf]
  · intro hs h0
    constructor
    · have h19 := (renderTick_iter b x y hs h0 19).2
      rw [h19]
      omega
    · intro n hn
      have hng := (renderTick_iter b x y hs h0 n).2
      rw [hng]
      omega

/-- Witness for C7: on a board whose cells all hold a cross at frame 0,
19 redraw cycles bring the frame counter of cell (0,0) to 19. -/
theorem frame_counter_saturates_w :
    ((renderTick^[19] (fun _ _ => (⟨1, 0⟩ : Tile))) 0 0).frame = 19 :=
  ((frame_counter_saturates GState.new (fun _ _ => (⟨1, 0⟩ : Tile)) 0 0).2.2
    (by decide) rfl).1

/-- C8: `gen_board_vertices` changes only frame counters: every cell keeps
its state, and an empty cell is entirely unchanged.  (The game's turn and
finished flags are untouched by construction: `genBoardVertices`, like the
Rust function, receives no game state at all.) -/
theorem gen_vertices_only_frames (b : Board) (x y : Fin 3) :
    ((genBoardVertices b).2 x y).state = (b x y).state
    ∧ ((b x y).state = 0 → (genBoardVertices b).2 x y = b x y) := by
  have hc : (genBoardVertices b).2 x y = tickTile (b x y) :=
    congrFun (congrFun (genBoardVertices_snd b) x) y
  rw [hc]
  refine ⟨tickTile_state (b x y), ?_⟩
  intro h0
  unfold tickTile
  rw [if_neg (by simp [h0])]

/-- Witness for C8: the empty board is unchanged at cell (0,0). -/
theorem gen_vertices_only_frames_w :
    (genBoardVertices genBoard).2 0 0 = genBoard 0 0 :=
  (gen_vertices_only_frames genBoard 0 0).2 rfl

/-- C4: with the game not finished, a click that targets an occupied cell
(and lands in bounds) mutates nothing: the same state and board are
returned and no error is raised. -/
theorem click_occupied_noop (s : GState) (mx my w h : ℚ) (b : Board)
    (hfin : s.finished = false)
    (hx : toUsize (mx / (w / 3)) < 3) (hy : toUsize (my / (h / 3)) < 3)
    (hocc : (b ⟨toUsize (mx / (w / 3)), hx⟩ ⟨toUsize (my / (h / 3)), hy⟩).state ≠ 0) :
    handleClick s mx my w h b = some (s, b) := by
  unfold handleClick
  simp only [hfin, Bool.false_eq_true, if_false]
  rw [dif_pos hx, dif_pos hy, if_neg hocc]

/-- Witness for C4: clicking the occupied centre-adjacent cell (2,2) of a
fully crossed board changes nothing. -/
theorem click_occupied_noop_w :
    handleClick GState.new 2 2 3 3 (fun _ _ => (⟨2, 0⟩ : Tile))
      = some (GState.new, fun _ _ => (⟨2, 0⟩ : Tile)) :=
  click_occupied_noop GState.new 2 2 3 3 (fun _ _ => (⟨2, 0⟩ : Tile)) rfl
    (by norm_num [toUsize]) (by norm_num [toUsize]) (by decide)

/-- C5: when the finished flag is true, `handle_click` is a complete no-op
for every mouse position and every board: state and board are returned
unchanged. -/
theorem click_finished_noop (s : GState) (mx my w h : ℚ) (b : Board)
    (hfin : s.finished = true) :
    handleClick s mx my w h b = some (s, b) := by
  unfold handleClick
  rw [if_pos hfin]

/-- Witness for C5: a finished game ignores a click on the empty board. -/
theorem click_finished_noop_w :
    handleClick { turn := true, finished := true } 2 2 3 3 genBoard
      = some ({ turn := true, finished := true }, genBoard) :=
  click_finished_noop { turn := true, finished := true } 2 2 3 3 genBoard rfl

/-- C6: in a fresh game the first mover is Cross (`turn = true`), and an
accepted click (game not finished, empty target cell) places the mark and
then flips the turn exactly when the move does not win: a winning accepted
move sets `finished` and leaves the turn flag unchanged, a non-winning
accepted move flips the turn flag and leaves `finished` false. -/
theorem turn_alternation (s : GState) (mx my w h : ℚ) (b : Board)
    (hfin : s.finished = false)
    (hx : toUsize (mx / (w / 3)) < 3) (hy : toUsize (my / (h / 3)) < 3)
    (hempty : (b ⟨toUsize (mx / (w / 3)), hx⟩ ⟨toUsize (my / (h / 3)), hy⟩).state = 0) :
    GState.new.turn = true
    ∧ handleClick s mx my w h b
        = some
            ((if winCond (placedBoard s b ⟨toUsize (mx / (w / 3)), hx⟩
                  ⟨toUsize (my / (h / 3)), hy⟩)
              then { s with finished := true }
              else { s with turn := !s.turn }),
             placedBoard s b ⟨toUsize (mx / (w / 3)), hx⟩ ⟨toUsize (my / (h / 3)), hy⟩) := by
  refine ⟨rfl, ?_⟩
  unfold handleClick
  simp only [hfin, Bool.false_eq_true, if_false]
  rw [dif_pos hx, dif_pos hy, if_pos hempty]
  unfold placedBoard
  by_cases hw : winCond (setTile b ⟨toUsize (mx / (w / 3)), hx⟩
      ⟨toUsize (my / (h / 3)), hy⟩ { frame := 0, state := if s.turn then 1 else 2 }) = true
  · simp [checkVictory, hw]
  · simp [checkVictory, changeTurn, hw, hfin]

/-- Witness for C6: the first mover of a fresh game is Cross (obtained by
applying the alternation theorem to a click on the empty board). -/
theorem turn_alternation_w : GState.new.turn = true :=
  (turn_alternation GState.new 2 2 3 3 genBoard rfl
    (by norm_num [toUsize]) (by norm_num [toUsize]) rfl).1

/-- The floor of the base-2 logarithm from explicit power bounds. -/
lemma log2_eq_of_bounds (q : ℚ) (e : ℤ) (hq : 0 < q)
    (h1 : (2 : ℚ) ^ e ≤ q) (h2 : q < (2 : ℚ) ^ (e + 1)) : Int.log 2 q = e := by
  have ha : e ≤ Int.log 2 q := (Int.zpow_le_iff_le_log (by norm_num) hq).mp (by exact_mod_cast h1)
  have hb : Int.log 2 q < e + 1 := (Int.lt_zpow_iff_log_lt (by norm_num) hq).mp (by exact_mod_cast h2)
  omega

/-- Modelled from IEEE-754 binary64 (the `f64` type of the source): round a
positive rational in the normal range to 53 significant bits, to nearest,
ties to even.  `Int.log 2 q` is the binade exponent, so the scaled
significand `s` lies in `[2^52, 2^53)`. -/
def roundB64 (q : ℚ) : ℚ :=
  let e : ℤ := Int.log 2 q
  let s : ℚ := q * (2 : ℚ) ^ ((52 : ℤ) - e)
  let m0 : ℤ := Int.floor s
  let fr : ℚ := s - (m0 : ℚ)
  let m : ℤ :=
    if fr < 1 / 2 then m0
    else if 1 / 2 < fr then m0 + 1
    else if m0 % 2 = 0 then m0 else m0 + 1
  (m : ℚ) * (2 : ℚ) ^ (e - (52 : ℤ))

/-- Modelled from IEEE-754 binary64: correctly rounded `f64` division, for
positive operands whose quotient is in the normal range. -/
def f64div (x y : ℚ) : ℚ := roundB64 (x / y)

/-- The column index `handle_click` computes under real `f64` semantics:
`(mouse_pos.x / (size.width as f64 / 3.)) as usize`, with both divisions
correctly rounded (the `u32 → f64` cast of the width is exact). -/
def clickIndexF64 (mouseX width : ℚ) : Nat :=
  toUsize (f64div mouseX (f64div width 3))

/-- `16.0 / 3.0` in `f64` rounds down to `6004799503160661 / 2^50`,
slightly below the real `16/3`. -/
lemma f64div_16_3 : f64div 16 3 = 6004799503160661 / 2 ^ 50 := by
  have hlog : Int.log 2 ((16 : ℚ) / 3) = 2 := by
    apply log2_eq_of_bounds _ 2 (by norm_num) <;> norm_num
  unfold f64div roundB64
  rw [hlog]
  norm_num

/-- Dividing the largest `f64` below 16 by `fl(16/3)` lands within half an
ulp of 3, so the correctly rounded `f64` quotient is exactly `3.0`. -/
lemma f64div_below16 :
    f64div (16 - 1 / 2 ^ 49) (6004799503160661 / 2 ^ 50) = 3 := by
  have hlog : Int.log 2 (((16 : ℚ) - 1 / 2 ^ 49) / (6004799503160661 / 2 ^ 50)) = 1 := by
    apply log2_eq_of_bounds _ 1 (by norm_num) <;> norm_num
  unfold f64div roundB64
  rw [hlog]
  norm_num

/-- C9 (code bug): under real `f64` semantics the in-bounds claim fails.
With window width 16 and mouse `x = 16 - 2^-49` (the largest `f64` below
16, so `0 ≤ x < width` holds), `x / (width / 3.)` rounds to exactly `3.0`
and the `as usize` cast yields column index 3 — outside `[0,2]`, so
`board[3][..]` panics.  Under exact real arithmetic the index would be 2;
the unguarded cast is the slip. -/
theorem click_index_overflow :
    ((0 : ℚ) ≤ 16 - 1 / 2 ^ 49 ∧ (16 : ℚ) - 1 / 2 ^ 49 < 16)
    ∧ clickIndexF64 (16 - 1 / 2 ^ 49) 16 = 3 := by
  refine ⟨⟨by norm_num, by norm_num⟩, ?_⟩
  unfold clickIndexF64
  rw [f64div_16_3, f64div_below16]
  norm_num [toUsize]
  rfl

/-- An event the application driver (`main.rs`) feeds into the game logic:
a mouse click or a redraw tick. -/
inductive Op where
  | click (mouseX mouseY width height : ℚ) : Op
  | render : Op

/-- Running a sequence of driver events over the game state and board,
as the event loop of `main.rs` does: clicks go through `handle_click`
(propagating its panic as `none`), redraws through `gen_board_vertices`
(which never receives the game state). -/
def runOps : GState × Board → List Op → Option (GState × Board)
  | st, [] => some st
  | st, Op.click mx my w h :: rest =>
      match handleClick st.1 mx my w h st.2 with
      | some st' => runOps st' rest
      | none => none
  | st, Op.render :: rest => runOps (st.1, (genBoardVertices st.2).2) rest

/-- C10: the finished flag is monotone: `check_victory` and `change_turn`
never clear it, and from a finished state no sequence of clicks and redraws
ever produces a state with `finished = false`. -/
theorem finished_monotone (s : GState) (b : Board) (hf : s.finished = true) :
    (checkVictory s b).finished = true
    ∧ (changeTurn s).finished = true
    ∧ ∀ (ops : List Op) (s' : GState) (b' : Board),
        runOps (s, b) ops = some (s', b') → s'.finished = true := by
  refine ⟨?_, ?_, ?_⟩
  · unfold checkVictory
    split_ifs <;> simp [hf]
  · simpa [changeTurn] using hf
  · intro ops
    induction ops generalizing b with
    | nil =>
      intro s' b' hr
      simp only [runOps, Option.some_inj, Prod.mk.injEq] at hr
      rw [← hr.1]
      exact hf
    | cons o rest ih =>
      intro s' b' hr
      cases o with
      | click mx my w h =>
        have hclick : handleClick s mx my w h b = some (s, b) := by
          unfold handleClick
          rw [if_pos hf]
        simp only [runOps, hclick] at hr
        exact ih b s' b' hr
      | render =>
        simp only [runOps] at hr
        exact ih ((genBoardVertices b).2) s' b' hr

/-- Witness for C10: a finished game stays finished under `check_victory`
on the empty board. -/
theorem finished_monotone_w :
    (checkVictory { turn := true, finished := true } genBoard).finished = true :=
  (finished_monotone { turn := true, finished := true } genBoard rfl).1

/-- Counterexample for C3: with a single mark at cell (1,1), the first tile
vertex (index 6, right after the background quad) has its corner at
`(-1 + 0.666, 1 - 0.666)` = `(-0.334, 0.334)` — not at
`(-1 + 2/3, 1 - 2/3)` = `(-1/3, 1/3)` as the claim's `2/3` step asserts:
the source uses the literal `0.666`, not `2/3`. -/
theorem tile_corner_counterexample :
    (((genBoardVertices (setTile genBoard 1 1 ⟨1, 0⟩)).1.get? 6).map Vertex.pos
        = some (-1 + 0.666 * 1, 1 - 0.666 * 1))
    ∧ ¬ (((genBoardVertices (setTile genBoard 1 1 ⟨1, 0⟩)).1.get? 6).map Vertex.pos
        = some (-1 + (2 / 3) * 1, 1 - (2 / 3) * 1)) := by
  constructor
  · simp [genBoardVertices, allIdx, genStep, setTile, genBoard, Tile.new, tileVerts,
      backgroundVerts]
  · simp [genBoardVertices, allIdx, genStep, setTile, genBoard, Tile.new, tileVerts,
      backgroundVerts]
    norm_num

/-- Modelled from the spec's description of the per-cell quad, amended to
the step the source actually uses: a two-triangle quad whose top-left
corner is `(px, py)`, spanning `0.666 × 0.666` (not `2/3 × 2/3`) in
normalized device coordinates, with texture columns of width `1/20`
starting at `tx` and texture rows of height `1/3` starting at `ty`. -/
def quadVerts (px py tx ty : ℚ) : List Vertex :=
  [ { pos := (px, py), tex_coords := (tx, ty) },
    { pos := (px, py - 0.666), tex_coords := (tx, ty + 1 / 3) },
    { pos := (px + 0.666, py - 0.666), tex_coords := (tx + 1 / 20, ty + 1 / 3) },
    { pos := (px, py), tex_coords := (tx, ty) },
    { pos := (px + 0.666, py - 0.666), tex_coords := (tx + 1 / 20, ty + 1 / 3) },
    { pos := (px + 0.666, py), tex_coords := (tx + 1 / 20, ty) } ]

/-- C3 (amended): for every occupied cell at `(col, row)`, the quad emitted
by `gen_board_vertices` (a contiguous block of its output) has its top-left
corner at `(-1 + 0.666*col, 1 - 0.666*row)` and spans a `0.666 × 0.666`
square — `0.666` exactly, the source's approximation of `2/3` — and its
texture coordinates select column `frame * 1/20` of the sprite sheet and
the row matching the occupant (Cross row 0, Knot row 1, scaled by `1/3`). -/
theorem tile_quad_geometry (b : Board) (x y : Fin 3)
    (hocc : (b x y).state = 1 ∨ (b x y).state = 2) :
    (∃ pre post, (genBoardVertices b).1 = pre ++ tileVerts (b x y) x y ++ post)
    ∧ tileVerts (b x y) x y
        = quadVerts (-1 + 0.666 * (x.val : ℚ)) (1 - 0.666 * (y.val : ℚ))
            ((b x y).frame * (1 / 20))
            (if (b x y).state = 1 then 0 else 1 / 3) := by
  have hs : (b x y).state ≠ 0 := by
    rcases hocc with h | h <;> simp [h]
  constructor
  · have hmem : (x, y) ∈ allIdx.filter (occupiedB b) := by
      rw [List.mem_filter]
      exact ⟨mem_allIdx (x, y), by simp [occupiedB, hs]⟩
    obtain ⟨pre, post, hp⟩ :=
      block_in_bind (fun xy => tileVerts (b xy.1 xy.2) xy.1 xy.2)
        (allIdx.filter (occupiedB b)) (x, y) hmem
    refine ⟨backgroundVerts ++ pre, post, ?_⟩
    rw [genBoardVertices_fst b]
    simp only at hp
    rw [hp]
    simp [List.append_assoc]
  · rcases hocc with h | h <;>
      simp [tileVerts, quadVerts, TW, TH, h, mul_comm]

/-- Witness for C3 (amended): applied to a board fully marked with crosses
at frame 5, at cell (0,0). -/
theorem tile_quad_geometry_w :
    ∃ pre post,
      (genBoardVertices (fun _ _ => (⟨1, 5⟩ : Tile))).1
        = pre ++ tileVerts ((fun _ _ => (⟨1, 5⟩ : Tile)) 0 0) 0 0 ++ post :=
  (tile_quad_geometry (fun _ _ => (⟨1, 5⟩ : Tile)) 0 0 (Or.inl rfl)).1

end TicTacToe
